import Mathlib

/-!
Verification development for the query serialization/parsing engine of the
react-querybuilder repository, focused on the PostgREST dialect pair
(formatQuery with the postgrest format, and parsePostgREST) and the shared
formatQuery validation / placeholder-filtering pipeline.

The embedding translates the TypeScript sources
  utils/formatQuery/defaultRuleProcessorPostgREST.ts  (also contains formatQuery)
  utils/parsePostgREST/parsePostgREST.ts
  utils/parsePostgREST/types.ts (the type guards, here structural matches)
into Lean. JavaScript numbers are modelled as rationals, JS objects of the
RQBPostgREST grammar as the inductive type PG (one constructor per recognized
single-key object shape, plus junk for unrecognized keys), and the canonical
query tree (standard variant, RuleGroupType) as the mutual inductives
RR / RGr / RRs. Helper functions of the repository that are not part of the
provided sources (toArray, parseNumber, isRuleOrGroupValid, joinWith, the
default rule processors of the non-PostgREST dialects, ...) are modelled from
the specification and are marked as such in their doc comments.
-/

namespace RQB

/-- A JavaScript scalar value: string, number (modelled as a rational),
boolean, or null. -/
inductive Scalar where
  | s (v : String)
  | n (v : Rat)
  | b (v : Bool)
  | null
deriving DecidableEq, Repr

/-- The value carried by a rule: a scalar or an array of scalars. -/
inductive RVal where
  | sc (v : Scalar)
  | arr (vs : List Scalar)
deriving DecidableEq, Repr

/-- The valueSource attribute of a rule: a literal value or a field name. -/
inductive ValueSrc where
  | value
  | field
deriving DecidableEq, Repr

/-- A canonical rule (leaf of the query tree), translated from RuleType. -/
structure Rule where
  id : Option String := none
  field : String
  operator : String
  value : RVal
  valueSource : Option ValueSrc := none
deriving DecidableEq, Repr

mutual
/-- An element of a rule-group child list: a rule or a nested group
(standard combinator variant of the canonical tree). -/
inductive RR where
  | rule (r : Rule)
  | group (g : RGr)
deriving DecidableEq, Repr

/-- A canonical rule group (RuleGroupType, standard variant): id, combinator,
negation flag (absent or set), ordered child list. -/
inductive RGr where
  | mk (id : Option String) (combinator : String) (flagNot : Option Bool) (rules : RRs)
deriving DecidableEq, Repr

/-- The child list of a rule group (its own list type, to keep mutual
structural recursion straightforward). -/
inductive RRs where
  | nil
  | cons (hd : RR) (tl : RRs)
deriving DecidableEq, Repr
end

def RGr.id : RGr → Option String
  | .mk i _ _ _ => i

def RGr.combinator : RGr → String
  | .mk _ c _ _ => c

def RGr.flagNot : RGr → Option Bool
  | .mk _ _ n _ => n

def RGr.rules : RGr → RRs
  | .mk _ _ _ rs => rs

def RRs.length : RRs → Nat
  | .nil => 0
  | .cons _ tl => tl.length + 1

mutual
/-- A value of the RQBPostgREST grammar (a RulesLogic-style JSON value):
literal leaves, a var reference, and one constructor per single-key operator
object shape recognized by the codec pair. The jnot constructor stands for an
object with the key not (emitted by negateIfNotOp in the formatter); jneg is
the key-bang negation and jnegneg the double-bang. junk stands for a plain
object whose first key is none of the recognized ones. jarrLit is a JSON
array literal appearing in operand position. -/
inductive PG where
  | jstr (v : String)
  | jnum (v : Rat)
  | jbool (v : Bool)
  | jnull
  | jarrLit (vs : List Scalar)
  | jvar (name : String)
  | jeq (a b : PG)
  | jseq (a b : PG)
  | jne (a b : PG)
  | jsne (a b : PG)
  | jgt (a b : PG)
  | jge (a b : PG)
  | jlt (a b : PG)
  | jle (a b : PG)
  | jlt3 (a b c : PG)
  | jle3 (a b c : PG)
  | jinArr (x : PG) (xs : PGL)
  | jinStr (x y : PG)
  | jstarts (a b : PG)
  | jends (a b : PG)
  | jneg (p : PG)
  | jnegneg (p : PG)
  | jand (xs : PGL)
  | jor (xs : PGL)
  | jnot (p : PG)
  | junk (key : String)
deriving DecidableEq, Repr

/-- A list of PG values (own list type for mutual recursion). -/
inductive PGL where
  | nil
  | cons (hd : PG) (tl : PGL)
deriving DecidableEq, Repr
end

end RQB

namespace RQB

/-- Sign parsing for the numeric-literal pattern: optional leading plus or
minus. -/
def parseSign : List Char → (Int × List Char)
  | '+' :: t => (1, t)
  | '-' :: t => (-1, t)
  | cs => (1, cs)

/-- Numeric value of a digit list (most significant first). -/
def digitsVal (ds : List Char) : Nat :=
  ds.foldl (fun a c => a * 10 + (c.toNat - 48)) 0

/-- Fractional part: a dot followed by at least one digit, or nothing. -/
def parseFrac : List Char → Option (List Char × List Char)
  | '.' :: t =>
    let p := t.span Char.isDigit
    if p.1.isEmpty then none else some (p.1, p.2)
  | cs => some ([], cs)

/-- Exponent part: the letter e or E, an optional sign and at least one
digit, or nothing. -/
def parseExp (cs : List Char) : Option (Int × List Char) :=
  match cs with
  | 'e' :: t =>
    let sg := parseSign t
    let p := sg.2.span Char.isDigit
    if p.1.isEmpty then none else some (sg.1 * (digitsVal p.1 : Int), p.2)
  | 'E' :: t =>
    let sg := parseSign t
    let p := sg.2.span Char.isDigit
    if p.1.isEmpty then none else some (sg.1 * (digitsVal p.1 : Int), p.2)
  | _ => some (0, cs)

/-- Modelled from the spec: the numeric-literal pattern used by parseNumbers
(numericRegex, not among the provided sources): optional sign, digits,
optional fractional part, optional exponent. Returns the denoted rational
when the whole string matches. -/
def numericParse (s : String) : Option Rat :=
  let sg := parseSign s.toList
  let ip := sg.2.span Char.isDigit
  if ip.1.isEmpty then none
  else
    match parseFrac ip.2 with
    | none => none
    | some fr =>
      match parseExp fr.2 with
      | none => none
      | some ex =>
        if ex.2.isEmpty then
          let base : Rat :=
            (digitsVal ip.1 : Rat) + (digitsVal fr.1 : Rat) / ((10 : Rat) ^ fr.1.length)
          some ((sg.1 : Rat) * base * (10 : Rat) ^ ex.1)
        else none

/-- True when the string matches the numeric-literal pattern. -/
def numericStr (s : String) : Bool := (numericParse s).isSome

/-- Modelled from the spec: shouldRenderAsNumber (not among the provided
sources) is true when numeric coercion is on and the value is already a
number or is a string matching the numeric-literal pattern. -/
def shouldRenderAsNumberS (v : Scalar) (parseNumbers : Bool) : Bool :=
  parseNumbers &&
    match v with
    | .n _ => true
    | .s str => numericStr str
    | _ => false

/-- shouldRenderAsNumber lifted to rule values: arrays are never rendered as
one number. -/
def shouldRenderAsNumberV (v : RVal) (parseNumbers : Bool) : Bool :=
  match v with
  | .sc x => shouldRenderAsNumberS x parseNumbers
  | .arr _ => false

/-- Modelled from the spec: parseNumber (not among the provided sources)
coerces a numeric-pattern string to a number when numeric parsing is
requested, and otherwise returns the value unchanged. -/
def parseNumberScalar (parseNumbers : Bool) (v : Scalar) : Scalar :=
  if parseNumbers then
    match v with
    | .s str =>
      match numericParse str with
      | some q => .n q
      | none => .s str
    | x => x
  else v

/-- The rational carried by a scalar that passes shouldRenderAsNumber (0 for
values that do not). -/
def scalarNumVal (v : Scalar) : Rat :=
  match parseNumberScalar true v with
  | .n q => q
  | _ => 0

/-- Decimal digits of the fractional part, width k, trailing zeros removed
(mirrors how JavaScript prints a finite decimal). -/
def fracDigitsStr (fracPart : Nat) (k : Nat) : String :=
  let raw := toString fracPart
  let padded := String.mk (List.replicate (k - raw.length) '0') ++ raw
  String.mk (padded.toList.reverse.dropWhile (fun c => c == '0')).reverse

/-- Modelled JavaScript number-to-string conversion on the rationals the
engine manipulates: integers print without a fraction; other rationals with
a finite decimal expansion print as decimals. -/
def ratToJsString (q : Rat) : String :=
  if q.den = 1 then toString q.num
  else
    match (List.range 21).find? (fun k => (10 ^ k : Nat) % q.den = 0) with
    | some k =>
      let a := (q.num * ((10 ^ k : Nat) / q.den : Nat)).natAbs
      (if q.num < 0 then "-" else "") ++
        toString (a / 10 ^ k) ++ "." ++ fracDigitsStr (a % 10 ^ k) k
    | none => toString q.num ++ "/" ++ toString q.den

/-- JavaScript template-string conversion of a scalar. -/
def scalarToString : Scalar → String
  | .s v => v
  | .n v => ratToJsString v
  | .b true => "true"
  | .b false => "false"
  | .null => "null"

/-- JavaScript template-string conversion of a rule value (arrays join their
elements with commas). -/
def rvalToString : RVal → String
  | .sc v => scalarToString v
  | .arr vs => String.intercalate "," (vs.map scalarToString)

/-- Split a character list on commas (the segments, in order, commas
dropped). -/
def splitCommaAux (cur : List Char) : List Char → List (List Char)
  | [] => [cur.reverse]
  | c :: rest =>
    if c = ',' then cur.reverse :: splitCommaAux [] rest
    else splitCommaAux (c :: cur) rest

/-- Remove leading and trailing whitespace from a character list. -/
def trimChars (cs : List Char) : List Char :=
  ((cs.dropWhile Char.isWhitespace).reverse.dropWhile Char.isWhitespace).reverse

/-- Comma-split a string into trimmed segments. -/
def splitCommaTrim (s : String) : List String :=
  (splitCommaAux [] s.toList).map (fun cs => String.mk (trimChars cs))

/-- Modelled from the spec: toArray (not among the provided sources) turns a
rule value into a list: arrays pass through, comma-joined strings split on
commas with blank segments dropped and segments trimmed, null gives the
empty list, any other scalar a one-element list. -/
def toArrayV : RVal → List Scalar
  | .arr xs => xs
  | .sc (.s str) =>
    ((splitCommaTrim str).filter (fun seg => seg ≠ "")).map Scalar.s
  | .sc .null => []
  | .sc x => [x]

/-- Modelled from the spec: joinWith with a comma (lists represented as
comma-joined strings). -/
def joinWithComma (xs : List String) : String := String.intercalate "," xs

/-- Modelled from the spec: isValidValue (not among the provided sources)
rejects null and the empty string (the guard on between bounds). -/
def isValidValue : Scalar → Bool
  | .null => false
  | .s str => !(str == "")
  | _ => true

/-- Modelled from the spec: defaultOperatorNegationMap pairs each negatable
operator with its counterpart. -/
def negateOp (op : String) : String :=
  match op with
  | "=" => "!="
  | "!=" => "="
  | "<" => ">="
  | "<=" => ">"
  | ">" => "<="
  | ">=" => "<"
  | "between" => "notBetween"
  | "notBetween" => "between"
  | "in" => "notIn"
  | "notIn" => "in"
  | "contains" => "doesNotContain"
  | "doesNotContain" => "contains"
  | "beginsWith" => "doesNotBeginWith"
  | "doesNotBeginWith" => "beginsWith"
  | "endsWith" => "doesNotEndWith"
  | "doesNotEndWith" => "endsWith"
  | "null" => "notNull"
  | "notNull" => "null"
  | other => other

/-- Default placeholder field name (the sentinel, spec default). -/
def defaultPlaceholderFieldName : String := "~"

/-- Default placeholder operator name (the sentinel, spec default). -/
def defaultPlaceholderOperatorName : String := "~"

end RQB

namespace RQB

/-- Scalar literal embedded as a PG value. -/
def scalarToPG : Scalar → PG
  | .s v => .jstr v
  | .n v => .jnum v
  | .b v => .jbool v
  | .null => .jnull

/-- Rule value embedded as a PG value (arrays become JSON array literals). -/
def rvalToPG : RVal → PG
  | .sc v => scalarToPG v
  | .arr vs => .jarrLit vs

/-- One character of a case-insensitive ASCII pattern match: the pattern
character is lowercase, the subject may carry its uppercase form. -/
def ciHead (p c : Char) : Bool :=
  c.toNat == p.toNat || c.toNat + 32 == p.toNat

/-- Case-insensitive ASCII starts-with over character lists (pattern given
in lowercase). -/
def ciStarts : List Char → List Char → Bool
  | [], _ => true
  | _ :: _, [] => false
  | p :: ps, c :: cs => ciHead p c && ciStarts ps cs

/-- negateIfNotOp from defaultRuleProcessorPostgREST.ts: operators matching
the case-insensitive pattern does-question-not at the start are wrapped in
an object with the key not (sic: the key is the word not, while the parser
recognizes only the bang key as negation). -/
def negateIfNotOp (op : String) (jsonRule : PG) : PG :=
  if ciStarts "not".toList op.toList || ciStarts "doesnot".toList op.toList then
    .jnot jsonRule
  else jsonRule

/-- PGL from a Lean list. -/
def pglOfList : List PG → PGL
  | [] => .nil
  | h :: t => .cons h (pglOfList t)

/-- defaultRuleProcessorPostgREST from the source: renders one rule as a PG
value, or none (false in the source) for an unsupported operator or invalid
between bounds. The convertOperator renaming of the source (the equals sign
becomes a double equals sign, other comparison keys unchanged) is realized
by the constructor choice. -/
def defaultRuleProcessorPostgREST (r : Rule) (parseNumbers : Bool) : Option PG :=
  let valueIsField := r.valueSource = some ValueSrc.field
  let fieldObject : PG := .jvar r.field
  let renderS : Scalar → PG := fun v =>
    if valueIsField then .jvar (scalarToString v)
    else if shouldRenderAsNumberS v parseNumbers then scalarToPG (parseNumberScalar parseNumbers v)
    else scalarToPG v
  let renderV : RVal → PG := fun v =>
    if valueIsField then .jvar (rvalToString v)
    else if shouldRenderAsNumberV v parseNumbers then
      match v with
      | .sc x => scalarToPG (parseNumberScalar parseNumbers x)
      | .arr xs => .jarrLit xs
    else rvalToPG v
  match r.operator with
  | "<" => some (.jlt fieldObject (renderV r.value))
  | "<=" => some (.jle fieldObject (renderV r.value))
  | "=" => some (.jeq fieldObject (renderV r.value))
  | "!=" => some (.jne fieldObject (renderV r.value))
  | ">" => some (.jgt fieldObject (renderV r.value))
  | ">=" => some (.jge fieldObject (renderV r.value))
  | "null" => some (.jeq fieldObject .jnull)
  | "notNull" => some (.jne fieldObject .jnull)
  | "in" =>
    some (negateIfNotOp "in" (.jinArr fieldObject (pglOfList ((toArrayV r.value).map renderS))))
  | "notIn" =>
    some (negateIfNotOp "notIn" (.jinArr fieldObject (pglOfList ((toArrayV r.value).map renderS))))
  | "between" =>
    processBetween r.value valueIsField fieldObject "between"
  | "notBetween" =>
    processBetween r.value valueIsField fieldObject "notBetween"
  | "contains" =>
    some (negateIfNotOp "contains" (.jinStr (renderV r.value) fieldObject))
  | "doesNotContain" =>
    some (negateIfNotOp "doesNotContain" (.jinStr (renderV r.value) fieldObject))
  | "beginsWith" =>
    some (negateIfNotOp "beginsWith" (.jstarts fieldObject (renderV r.value)))
  | "doesNotBeginWith" =>
    some (negateIfNotOp "doesNotBeginWith" (.jstarts fieldObject (renderV r.value)))
  | "endsWith" =>
    some (negateIfNotOp "endsWith" (.jends fieldObject (renderV r.value)))
  | "doesNotEndWith" =>
    some (negateIfNotOp "doesNotEndWith" (.jends fieldObject (renderV r.value)))
  | _ => none
where
  /-- The between and notBetween case of the processor: requires at least two
  valid bounds; two numeric non-field bounds are parsed and put in ascending
  order; field-source bounds become var objects; the result is the three-term
  le object, negation-wrapped for notBetween. -/
  processBetween (value : RVal) (valueIsField : Bool) (fieldObject : PG) (op : String) :
      Option PG :=
    let valueAsArray := toArrayV value
    match valueAsArray with
    | v0 :: v1 :: _ =>
      if isValidValue v0 && isValidValue v1 then
        let rendered : PG × PG :=
          if !valueIsField && shouldRenderAsNumberS v0 true && shouldRenderAsNumberS v1 true then
            let firstNum := scalarNumVal v0
            let secondNum := scalarNumVal v1
            if secondNum < firstNum then (.jnum secondNum, .jnum firstNum)
            else (.jnum firstNum, .jnum secondNum)
          else if valueIsField then (.jvar (scalarToString v0), .jvar (scalarToString v1))
          else (scalarToPG v0, scalarToPG v1)
        some (negateIfNotOp op (.jle3 rendered.1 fieldObject rendered.2))
      else none
    | _ => none

end RQB

namespace RQB

mutual
/-- Termination measure for processLogic: counts the nodes the parser can
recurse through. Operand positions of recognized operator objects are not
recursed into and do not count; the three-term lt object (exclusive
between) carries weight 6 because the parser re-enters itself on a freshly
built two-element and object of weight 5. -/
def pgW : PG → Nat
  | .jneg p => pgW p + 1
  | .jnegneg p => pgW p + 1
  | .jand xs => pgWL xs + 1
  | .jor xs => pgWL xs + 1
  | .jlt3 _ _ _ => 6
  | _ => 1

/-- List version of the termination measure. -/
def pgWL : PGL → Nat
  | .nil => 0
  | .cons h t => pgW h + pgWL t + 1
end

/-- isPojo on PG values: every operator-keyed object shape (including var
objects and unknown-key objects) is a plain object; literals and array
literals are not. -/
def PG.isPojo : PG → Bool
  | .jstr _ => false
  | .jnum _ => false
  | .jbool _ => false
  | .jnull => false
  | .jarrLit _ => false
  | _ => true

/-- isRQBPostgRESTVar: a var object whose var member is a string (always a
string by construction here). -/
def PG.isVar : PG → Bool
  | .jvar _ => true
  | _ => false

/-- The var member of a var object (empty string otherwise). -/
def PG.varName : PG → String
  | .jvar f => f
  | _ => ""

/-- The literal rule value denoted by a non-pojo PG operand. -/
def pgLitRVal : PG → RVal
  | .jstr v => .sc (.s v)
  | .jnum v => .sc (.n v)
  | .jbool v => .sc (.b v)
  | .jnull => .sc .null
  | .jarrLit vs => .arr vs
  | _ => .sc .null

/-- The type-uniformity check of the between branches: both operands are
vars, or both strings, or both numbers, or both booleans. -/
def sameKindPair (a c : PG) : Bool :=
  (a.isVar && c.isVar) ||
    (match a, c with
     | .jstr _, .jstr _ => true
     | .jnum _, .jnum _ => true
     | .jbool _, .jbool _ => true
     | _, _ => false)

/-- All elements of an in-array are var objects (true for the empty list,
as for the JavaScript every method). -/
def pglAllVar : PGL → Bool
  | .nil => true
  | .cons h t => h.isVar && pglAllVar t

/-- Kind tag for the in-array type-uniformity check. -/
inductive ScKind where
  | kstr
  | knum
  | kbool
deriving DecidableEq

/-- All elements of an in-array are scalars of the given kind. -/
def pglAllKind (k : ScKind) : PGL → Bool
  | .nil => true
  | .cons h t =>
    (match k, h with
     | .kstr, .jstr _ => true
     | .knum, .jnum _ => true
     | .kbool, .jbool _ => true
     | _, _ => false) && pglAllKind k t

/-- The var names of an in-array of var objects. -/
def pglVarNames : PGL → List String
  | .nil => []
  | .cons h t => h.varName :: pglVarNames t

/-- The scalars of an in-array of scalar literals. -/
def pglScalars : PGL → List Scalar
  | .nil => []
  | .cons h t =>
    (match h with
     | .jstr v => Scalar.s v
     | .jnum v => Scalar.n v
     | .jbool v => Scalar.b v
     | _ => Scalar.null) :: pglScalars t

/-- The length check the parser applies to a reconstructed list value
(string length for comma-joined strings, element count for arrays, zero for
the initial empty-string value). -/
def rvalLength : RVal → Nat
  | .arr xs => xs.length
  | .sc (.s str) => str.length
  | .sc _ => 0

/-- Options of parsePostgREST that the embedding models: the flat field
list and the listsAsArrays flag (getValueSources, custom PostgRESTOperations
and independentCombinators are not modelled; the claims under study do not
use them). -/
structure ParseOpts where
  fields : List String := []
  listsAsArrays : Bool := false

/-- Modelled from the spec: fieldIsValidUtil (not among the provided
sources). With no field registry every field is accepted; with one, the
field must exist and a subordinate field (for field-valued references) must
exist and be distinct. Operator compatibility data is not modelled. -/
def fieldIsValid (opts : ParseOpts) (fieldName : String) (_operator : String)
    (subordinateFieldName : Option String) : Bool :=
  if opts.fields.isEmpty then true
  else
    opts.fields.contains fieldName &&
      (match subordinateFieldName with
       | some sf => sf ≠ fieldName && opts.fields.contains sf
       | none => true)

/-- Kinds of the two-operand comparison objects handled by the first guard
chain of processLogic. -/
inductive BasicKind where
  | keq
  | kseq
  | kne
  | ksne
  | kgt
  | kge
  | klt
  | kle
  | kinStr
  | kstarts
  | kends
deriving DecidableEq

/-- The basic-comparison branch of processLogic (lines 171 to 217 of the
source): operand extraction (var plus literal in either order, or var plus
var giving a field-valued reference), operator translation (equality with a
null literal becomes the null test, inequality the notNull test, the
in-string shape contains, startsWith beginsWith, endsWith endsWith), and
the field-validity filter. -/
def processBasic (opts : ParseOpts) (kind : BasicKind) (first second : PG) : Option Rule :=
  let extracted : Option (String × RVal × Option ValueSrc) :=
    if first.isVar && !second.isPojo then some (first.varName, pgLitRVal second, none)
    else if !first.isPojo && second.isVar then some (second.varName, pgLitRVal first, none)
    else if first.isVar && second.isVar then
      some (first.varName, .sc (.s second.varName), some ValueSrc.field)
    else none
  match extracted with
  | none => none
  | some (field, value, valueSource) =>
    let operator : String :=
      match kind with
      | .keq => if value = .sc .null then "null" else "="
      | .kseq => if value = .sc .null then "null" else "="
      | .kne => if value = .sc .null then "notNull" else "!="
      | .ksne => if value = .sc .null then "notNull" else "!="
      | .kinStr => "contains"
      | .kstarts => "beginsWith"
      | .kends => "endsWith"
      | .kgt => ">"
      | .kge => ">="
      | .klt => "<"
      | .kle => "<="
    let subordinate : Option String :=
      if valueSource = some ValueSrc.field then
        match value with
        | .sc (.s sf) => some sf
        | _ => none
      else none
    if fieldIsValid opts field operator subordinate then
      some { field := field, operator := operator, value := value, valueSource := valueSource }
    else none

/-- The scalar denoted by a PG scalar literal (null for other shapes). -/
def pgScalar : PG → Scalar
  | .jstr v => .s v
  | .jnum v => .n v
  | .jbool v => .b v
  | _ => .null

/-- JavaScript template-string conversion of a PG scalar literal (used by
the between and in branches when joining list elements). -/
def pgScalarStr (p : PG) : String := scalarToString (pgScalar p)

/-- The inclusive-between branch of processLogic (lines 234 to 261): builds
a between rule from a three-term le object with a var in the middle. -/
def processBetweenInclusive (opts : ParseOpts) (a c : PG) (f : String) : Option Rule :=
  let prelim : RVal × Option ValueSrc :=
    if a.isVar && c.isVar then
      let fieldList :=
        ([a.varName, c.varName]).filter (fun sf => fieldIsValid opts f "between" (some sf))
      (if opts.listsAsArrays then .arr (fieldList.map Scalar.s)
       else .sc (.s (joinWithComma fieldList)), some ValueSrc.field)
    else if sameKindPair a c then
      (if opts.listsAsArrays then .arr [pgScalar a, pgScalar c]
       else .sc (.s (joinWithComma [pgScalarStr a, pgScalarStr c])), none)
    else (.sc (.s ""), none)
  if fieldIsValid opts f "between" none && 2 ≤ rvalLength prelim.1 then
    some { field := f, operator := "between", value := prelim.1, valueSource := prelim.2 }
  else none

end RQB

namespace RQB

/-- Scalar-kind uniformity of the two outer operands of a between object:
both strings, both numbers, or both booleans. -/
def sameScalarKind (a c : PG) : Bool :=
  match a, c with
  | .jstr _, .jstr _ => true
  | .jnum _, .jnum _ => true
  | .jbool _, .jbool _ => true
  | _, _ => false

/-- The in-array branch of processLogic (lines 262 to 291): an in rule from
an in object whose second member is an array; an all-var array gives a
field-valued list filtered for validity, a type-uniform scalar array the
(joined) literal list, anything else the empty value; the rule is kept only
when the value is non-empty. -/
def processInArray (opts : ParseOpts) (f : String) (xs : PGL) : Option Rule :=
  let prelim : RVal × Option ValueSrc :=
    if pglAllVar xs then
      let fieldList := (pglVarNames xs).filter (fun sf => fieldIsValid opts f "in" (some sf))
      (if opts.listsAsArrays then .arr (fieldList.map Scalar.s)
       else .sc (.s (joinWithComma fieldList)), some ValueSrc.field)
    else if pglAllKind .kstr xs || pglAllKind .knum xs || pglAllKind .kbool xs then
      (if opts.listsAsArrays then .arr (pglScalars xs)
       else .sc (.s (joinWithComma ((pglScalars xs).map scalarToString))), none)
    else (.sc (.s ""), none)
  if 0 < rvalLength prelim.1 then
    some { field := f, operator := "in", value := prelim.1, valueSource := prelim.2 }
  else none

/-- RRs from a Lean list. -/
def rrsOfList : List RR → RRs
  | [] => .nil
  | h :: t => .cons h (rrsOfList t)

/-- The final return of processLogic for the branches that set the rule
variable (line 293): a reconstructed rule at the outermost level is wrapped
in a one-element and group. -/
def wrapRule (outermost : Bool) : Option Rule → Option RR
  | none => none
  | some r =>
    if outermost then some (.group (.mk none "and" none (.cons (.rule r) .nil)))
    else some (.rule r)

mutual
/-- processLogic from parsePostgREST.ts (fuelled form, so that the
definition is structurally recursive and computes by kernel reduction; the
fuel argument is always instantiated with the pgW measure, which strictly
dominates the recursion depth, so the zero-fuel branch is unreachable).
Branch order follows the source: the outermost pojo bail-out, the and and
or groups, negation (with operator-negation absorption for the negatable
operators; a non-group result under a between-exclusive negation cannot
occur, since a between-exclusive object always parses to a group, so the
spread-with-not branch of the source is realized only for groups),
double negation (note: re-entered with outermost unset), the two-operand
comparison chain, exclusive between (re-entered as an and of two strict
comparisons), inclusive between, and array membership. Everything else
parses to none (false in the source). Custom PostgRESTOperations are not
modelled. -/
def processLogicF (opts : ParseOpts) : Nat → PG → Bool → Option RR
  | 0, _, _ => none
  | fuel + 1, logic, outermost =>
    if outermost && !logic.isPojo then none
    else
      match logic with
      | .jand xs =>
        some (.group (.mk none "and" none (rrsOfList (processLogicLF opts fuel xs))))
      | .jor xs =>
        some (.group (.mk none "or" none (rrsOfList (processLogicLF opts fuel xs))))
      | .jneg inner =>
        (match processLogicF opts fuel inner false with
         | some (.rule r) =>
           if r.operator = "between" || r.operator = "in" || r.operator = "contains" ||
               r.operator = "beginsWith" || r.operator = "endsWith" then
             let newRule := { r with operator := negateOp r.operator }
             if outermost then
               some (.group (.mk none "and" none (.cons (.rule newRule) .nil)))
             else some (.rule newRule)
           else some (.group (.mk none "and" (some true) (.cons (.rule r) .nil)))
         | some (.group g) => some (.group (.mk g.id g.combinator (some true) g.rules))
         | none => none)
      | .jnegneg inner => processLogicF opts fuel inner false
      | .jlt3 a b c =>
        if b.isVar then
          if (a.isVar && c.isVar) || sameScalarKind a c then
            processLogicF opts fuel
              (.jand (.cons (.jgt (.jvar b.varName) a)
                (.cons (.jlt (.jvar b.varName) c) .nil)))
              false
          else none
        else none
      | .jle3 a b c =>
        if b.isVar then wrapRule outermost (processBetweenInclusive opts a c b.varName)
        else none
      | .jinArr x xs =>
        if x.isVar then wrapRule outermost (processInArray opts x.varName xs)
        else none
      | .jeq a b => wrapRule outermost (processBasic opts .keq a b)
      | .jseq a b => wrapRule outermost (processBasic opts .kseq a b)
      | .jne a b => wrapRule outermost (processBasic opts .kne a b)
      | .jsne a b => wrapRule outermost (processBasic opts .ksne a b)
      | .jgt a b => wrapRule outermost (processBasic opts .kgt a b)
      | .jge a b => wrapRule outermost (processBasic opts .kge a b)
      | .jlt a b => wrapRule outermost (processBasic opts .klt a b)
      | .jle a b => wrapRule outermost (processBasic opts .kle a b)
      | .jinStr a b => wrapRule outermost (processBasic opts .kinStr a b)
      | .jstarts a b => wrapRule outermost (processBasic opts .kstarts a b)
      | .jends a b => wrapRule outermost (processBasic opts .kends a b)
      | _ => none

/-- Child mapping of the and and or branches (fuelled): map processLogic
over the children and drop the false results (the filter-Boolean of the
source). -/
def processLogicLF (opts : ParseOpts) : Nat → PGL → List RR
  | 0, _ => []
  | _ + 1, .nil => []
  | fuel + 1, .cons h t =>
    match processLogicF opts fuel h false with
    | some rr => rr :: processLogicLF opts fuel t
    | none => processLogicLF opts fuel t
end

/-- processLogic at its canonical fuel: the pgW measure decreases by at
least one on every recursive call while the fuel decreases by exactly one,
so this fuel always suffices, and along the unary negation and
between-exclusive paths the callee fuel is again exactly its pgW measure,
making the defining equations of the source hold definitionally. -/
def processLogic (opts : ParseOpts) (logic : PG) (outermost : Bool) : Option RR :=
  processLogicF opts (pgW logic) logic outermost

/-- Child mapping at its canonical fuel. -/
def processLogicL (opts : ParseOpts) (xs : PGL) : List RR :=
  processLogicLF opts (pgWL xs) xs

/-- The canonical empty group. -/
def emptyRuleGroup : RGr := .mk none "and" none .nil

/-- Input of parsePostgREST: a raw string to be JSON-deserialized first, or
a ready-made logic object. -/
inductive PInput where
  | raw (s : String)
  | obj (l : PG)

/-- parsePostgREST from the source, with the JSON deserializer of the host
platform passed in as a function (a failing parse is the caught-exception
branch returning the canonical empty group). The result mirrors the runtime
behavior, which can be a bare rule (see the double-negation path), so the
return type is RR rather than RGr. The independentCombinators conversion is
not modelled. -/
def parsePostgREST (jsonParse : String → Option PG) (input : PInput)
    (opts : ParseOpts) : RR :=
  let logicRoot : Option PG :=
    match input with
    | .raw s => jsonParse s
    | .obj l => some l
  match logicRoot with
  | none => .group emptyRuleGroup
  | some root =>
    match processLogic opts root true with
    | some rr => rr
    | none => .group emptyRuleGroup

end RQB

namespace RQB

/-- Export formats of formatQuery. -/
inductive Fmt where
  | json
  | sql
  | json_without_ids
  | parameterized
  | parameterized_named
  | mongodb
  | cel
  | jsonlogic
  | spel
  | elasticsearch
  | jsonata
  | natural_language
  | postgrest
deriving DecidableEq, Repr

/-- A validation-map entry: a plain boolean or a structured result (the
reasons list of the source carries no behavior and is not modelled). -/
inductive VRes where
  | vb (b : Bool)
  | vr (valid : Bool)
deriving DecidableEq, Repr

/-- The result of the whole-query validator: a plain boolean or a map from
node id to validity. -/
inductive VOut where
  | vb (b : Bool)
  | vmap (m : List (String × VRes))

/-- A field registry entry as far as formatQuery consumes it: identifying
name and optional per-rule validator. -/
structure FieldDef where
  name : String
  validator : Option (Rule → Bool) := none

/-- The formatQuery options the embedding models. Calling formatQuery with
a bare format string corresponds to the default options with only the
format set. Custom value and rule processors, quoting options and SQL
presets are not modelled (the claims under study do not exercise them and
they do not alter the validation or placeholder filtering pipeline). -/
structure FQOptions where
  format : Fmt := .json
  validator : Option (RGr → VOut) := none
  fields : List FieldDef := []
  fallbackExpression : Option String := none
  parseNumbers : Bool := false
  placeholderFieldName : Option String := none
  placeholderOperatorName : Option String := none

/-- The option-derived context threaded through the per-format recursions. -/
structure FQEnv where
  validationMap : List (String × VRes)
  fields : List FieldDef
  fallbackExpression : String
  parseNumbers : Bool
  phField : String
  phOp : String

/-- Lookup in the validation map. -/
def lookupVM (m : List (String × VRes)) (k : String) : Option VRes :=
  (m.find? (fun p => p.1 = k)).map (fun p => p.2)

/-- Modelled from the spec: isRuleOrGroupValid (not among the provided
sources). A recorded boolean or structured validation result decides; with
none recorded, a field validator attached to the rule decides; everything
else is valid. -/
def isRuleOrGroupValid (vres : Option VRes) (fieldValidator : Option (Rule → Bool))
    (r : Option Rule) : Bool :=
  match vres with
  | some (.vb b) => b
  | some (.vr v) => v
  | none =>
    match fieldValidator, r with
    | some f, some ru => f ru
    | _, _ => true

/-- validateRule from the source: the validation-map entry for the rule id
(a falsy empty id is not looked up) and the validator of the matching
field. -/
def validateRule (env : FQEnv) (r : Rule) : Option VRes × Option (Rule → Bool) :=
  (match r.id with
   | some i => if i = "" then none else lookupVM env.validationMap i
   | none => none,
   (env.fields.find? (fun f => f.name = r.field)).bind (fun f => f.validator))

/-- The group-validity test of every region: the validation-map entry under
the group id (the empty string when absent). -/
def groupValid (env : FQEnv) (g : RGr) : Bool :=
  isRuleOrGroupValid (lookupVM env.validationMap (g.id.getD "")) none none

/-- The per-rule drop test shared by every region: invalid by validation
map or field validator, or the field or operator equals its placeholder
sentinel. -/
def ruleDropped (env : FQEnv) (r : Rule) : Bool :=
  let vr := validateRule env r
  !(isRuleOrGroupValid vr.1 vr.2 (some r)) || r.field = env.phField || r.operator = env.phOp

/-- Modelled from the spec: the default SQL rule processor (not among the
provided sources) renders one field-operator-value fragment. Quoting
options are not modelled; no claim depends on the fragment text. -/
def ruleSqlM (r : Rule) : String :=
  r.field ++ " " ++ r.operator ++ " " ++ rvalToString r.value

/-- Modelled from the spec: the default CEL rule processor (not among the
provided sources). -/
def ruleCelM (r : Rule) : String :=
  r.field ++ " " ++ r.operator ++ " " ++ rvalToString r.value

/-- Modelled from the spec: the default SpEL rule processor (not among the
provided sources). -/
def ruleSpelM (r : Rule) : String :=
  r.field ++ " " ++ r.operator ++ " " ++ rvalToString r.value

/-- Modelled from the spec: the default JSONata rule processor (not among
the provided sources). -/
def ruleJsonataM (r : Rule) : String :=
  r.field ++ " " ++ r.operator ++ " " ++ rvalToString r.value

/-- Modelled from the spec: the default natural-language rule processor
(not among the provided sources). -/
def ruleNlM (r : Rule) : String :=
  r.field ++ " " ++ r.operator ++ " " ++ rvalToString r.value

/-- Modelled from the spec: the default MongoDB rule processor (not among
the provided sources) renders one operator-object fragment. -/
def ruleMongoM (r : Rule) : String :=
  "\x7b\"" ++ r.field ++ "\":\"" ++ rvalToString r.value ++ "\"\x7d"

/-- Modelled from the spec: the default JsonLogic rule processor (not among
the provided sources) produces the same leaf shapes as the PostgREST one,
negation carried by the bang key rather than the word not. -/
def ruleJsonLogicM (r : Rule) (parseNumbers : Bool) : Option PG :=
  match defaultRuleProcessorPostgREST r parseNumbers with
  | some (.jnot x) => some (.jneg x)
  | other => other

mutual
/-- An Elasticsearch query object: leaves are modelled opaquely (the spec
describes only the group shapes), groups are the bool queries of the
region. The emptyObj constructor is the bare empty object. -/
inductive EsQ where
  | leaf (r : Rule)
  | must (xs : EsL)
  | should (xs : EsL)
  | mustNot (xs : EsL)
  | mustNotShould (xs : EsL)
  | emptyObj
deriving DecidableEq, Repr

/-- A list of Elasticsearch query objects. -/
inductive EsL where
  | nil
  | cons (hd : EsQ) (tl : EsL)
deriving DecidableEq, Repr
end

/-- EsL from a Lean list. -/
def esOfList : List EsQ → EsL
  | [] => .nil
  | h :: t => .cons h (esOfList t)

/-- Scalars a rule value contributes to a positional parameter list
(modelled: one parameter per scalar element). -/
def rvalParams : RVal → List Scalar
  | .sc v => [v]
  | .arr vs => vs

/-- Modelled from the spec: the default parameterized rule processor (not
among the provided sources): a fragment with question-mark placeholders and
the parameter values in order. -/
def ruleParamM (r : Rule) : String × List Scalar :=
  (r.field ++ " " ++ r.operator ++ " ?", rvalParams r.value)

/-- The per-field counter state of the parameterized-named format. -/
def getNextNamedParam (fieldParams : List (String × Nat)) (field : String) :
    String × List (String × Nat) :=
  let count := ((fieldParams.find? (fun p => p.1 = field)).map (fun p => p.2)).getD 0 + 1
  (field ++ "_" ++ toString count,
   (field, count) :: fieldParams.filter (fun p => p.1 ≠ field))

/-- Modelled from the spec: the default parameterized-named rule processor
(not among the provided sources): draws a fresh name from
getNextNamedParam and binds the rule value to it. -/
def ruleParamNamedM (r : Rule) (fieldParams : List (String × Nat)) :
    String × List (String × Scalar) × List (String × Nat) :=
  let np := getNextNamedParam fieldParams r.field
  (r.field ++ " " ++ r.operator ++ " :" ++ np.1,
   [(np.1, Scalar.s (rvalToString r.value))], np.2)

/-- Output of formatQuery: a string, a parameterized object, a
parameterized-named object, a JsonLogic or PostgREST object (none for the
false of the source), or an Elasticsearch object. -/
inductive FQOut where
  | str (s : String)
  | paramSql (sql : String) (params : List Scalar)
  | namedSql (sql : String) (params : List (String × Scalar))
  | logic (l : Option PG)
  | es (q : EsQ)
deriving DecidableEq, Repr

end RQB

namespace RQB

/-- Indentation blanks. -/
def spaces (n : Nat) : String := String.mk (List.replicate n ' ')

/-- JSON text of a scalar (string escaping is not modelled; the values the
development evaluates contain no characters needing escapes). -/
def scalarJson : Scalar → String
  | .s v => "\"" ++ v ++ "\""
  | .n v => ratToJsString v
  | .b true => "true"
  | .b false => "false"
  | .null => "null"

/-- JSON text of a rule value; pretty mode mirrors JSON.stringify with a
two-blank indent, compact mode the no-indent call. -/
def rvalJson (pretty : Bool) (ind : Nat) : RVal → String
  | .sc v => scalarJson v
  | .arr [] => "[]"
  | .arr xs =>
    if pretty then
      "[\n" ++
        String.intercalate ",\n" (xs.map (fun x => spaces (ind + 2) ++ scalarJson x)) ++
        "\n" ++ spaces ind ++ "]"
    else "[" ++ String.intercalate "," (xs.map scalarJson) ++ "]"

/-- A JSON object from already-rendered entry strings. -/
def jsonObj (pretty : Bool) (ind : Nat) (entries : List String) : String :=
  if pretty then
    "\x7b\n" ++ String.intercalate ",\n" (entries.map (fun e => spaces (ind + 2) ++ e)) ++
      "\n" ++ spaces ind ++ "\x7d"
  else "\x7b" ++ String.intercalate "," entries ++ "\x7d"

/-- A JSON array from already-rendered element strings. -/
def jsonArr (pretty : Bool) (ind : Nat) (elems : List String) : String :=
  if elems.isEmpty then "[]"
  else if pretty then
    "[\n" ++ String.intercalate ",\n" (elems.map (fun e => spaces (ind + 2) ++ e)) ++
      "\n" ++ spaces ind ++ "]"
  else "[" ++ String.intercalate "," elems ++ "]"

/-- JSON text of a rule: the id and path stripping of the
json_without_ids format corresponds to withIds set to false (path keys do
not exist in this model). Key order fixes one JavaScript insertion order:
id first when kept, then field, operator, value, valueSource. -/
def ruleJson (withIds pretty : Bool) (ind : Nat) (r : Rule) : String :=
  let colon := if pretty then ": " else ":"
  let idEntry : List String :=
    match r.id with
    | some i => if withIds then ["\"id\"" ++ colon ++ "\"" ++ i ++ "\""] else []
    | none => []
  let vsEntry : List String :=
    match r.valueSource with
    | some .value => ["\"valueSource\"" ++ colon ++ "\"value\""]
    | some .field => ["\"valueSource\"" ++ colon ++ "\"field\""]
    | none => []
  jsonObj pretty ind
    (idEntry ++
      ["\"field\"" ++ colon ++ "\"" ++ r.field ++ "\"",
       "\"operator\"" ++ colon ++ "\"" ++ r.operator ++ "\"",
       "\"value\"" ++ colon ++ rvalJson pretty (ind + 2) r.value] ++
      vsEntry)

mutual
/-- JSON text of a group (JSON.stringify of the source json and
json_without_ids regions). Key order: id first when kept, then combinator,
rules, and the not flag when present. -/
def groupJson (withIds pretty : Bool) (ind : Nat) : RGr → String
  | .mk gid comb gnot rs =>
    let colon := if pretty then ": " else ":"
    let idEntry : List String :=
      match gid with
      | some i => if withIds then ["\"id\"" ++ colon ++ "\"" ++ i ++ "\""] else []
      | none => []
    let notEntry : List String :=
      match gnot with
      | some true => ["\"not\"" ++ colon ++ "true"]
      | some false => ["\"not\"" ++ colon ++ "false"]
      | none => []
    jsonObj pretty ind
      (idEntry ++
        ["\"combinator\"" ++ colon ++ "\"" ++ comb ++ "\"",
         "\"rules\"" ++ colon ++ jsonArr pretty (ind + 2) (rulesJson withIds pretty (ind + 4) rs)] ++
        notEntry)

/-- JSON texts of the elements of a child list. -/
def rulesJson (withIds pretty : Bool) (ind : Nat) : RRs → List String
  | .nil => []
  | .cons (.rule r) tl => ruleJson withIds pretty ind r :: rulesJson withIds pretty ind tl
  | .cons (.group g) tl => groupJson withIds pretty ind g :: rulesJson withIds pretty ind tl
end

/-- Numeric coercion of one rule value (the numerifyValues transform). -/
def numerifyRVal : RVal → RVal
  | .sc v => .sc (parseNumberScalar true v)
  | .arr vs => .arr (vs.map (parseNumberScalar true))

mutual
/-- Modelled from the spec: numerifyValues (not among the provided sources)
is the whole-tree numeric-coercion transform of the json formats; it
produces a new tree with every numeric-pattern value coerced. -/
def numerifyRG : RGr → RGr
  | .mk i c n rs => .mk i c n (numerifyRRs rs)

/-- numerifyValues over a child list. -/
def numerifyRRs : RRs → RRs
  | .nil => .nil
  | .cons (.rule r) tl => .cons (.rule { r with value := numerifyRVal r.value }) (numerifyRRs tl)
  | .cons (.group g) tl => .cons (.group (numerifyRG g)) (numerifyRRs tl)
end

end RQB

namespace RQB

mutual
/-- The sql region of formatQuery (processRuleGroup): invalid groups give
the fallback at the outermost-or-lonely position and vanish elsewhere; a
child list that mapped to no entries at all gives the fallback; otherwise
the non-empty fragments are joined with the combinator inside parentheses,
with a NOT prefix for a negated group. String combinator tokens of the
independent-combinator variant do not occur in the standard-variant
embedding. -/
def sqlRG (env : FQEnv) (rg : RGr) (outermostOrLonelyInGroup : Bool) : String :=
  match rg with
  | .mk gid comb gnot rs =>
    if !groupValid env (.mk gid comb gnot rs) then
      if outermostOrLonelyInGroup then env.fallbackExpression else ""
    else
      let processedRules := sqlRRs env (rs.length == 1) rs
      if processedRules.length = 0 then env.fallbackExpression
      else
        (if gnot = some true then "NOT " else "") ++ "(" ++
          String.intercalate (" " ++ comb ++ " ")
            (processedRules.filter (fun s => s ≠ "")) ++ ")"

/-- Child mapping of the sql region: subgroups recurse with the
lonely-in-group flag of the parent list, dropped rules map to the empty
string, kept rules to their rendered fragment. -/
def sqlRRs (env : FQEnv) (lonely : Bool) : RRs → List String
  | .nil => []
  | .cons (.group sub) tl => sqlRG env sub lonely :: sqlRRs env lonely tl
  | .cons (.rule r) tl =>
    (if ruleDropped env r then "" else ruleSqlM r) :: sqlRRs env lonely tl
end

mutual
/-- The parameterized region of formatQuery: like the sql region but
threading the positional parameter list through the walk; a dropped rule
contributes neither a fragment nor parameters. -/
def paramRG (env : FQEnv) (rg : RGr) (outermostOrLonelyInGroup : Bool)
    (acc : List Scalar) : String × List Scalar :=
  match rg with
  | .mk gid comb gnot rs =>
    if !groupValid env (.mk gid comb gnot rs) then
      ((if outermostOrLonelyInGroup then env.fallbackExpression else ""), acc)
    else
      let pr := paramRRs env (rs.length == 1) rs acc
      if pr.1.length = 0 then (env.fallbackExpression, pr.2)
      else
        ((if gnot = some true then "NOT " else "") ++ "(" ++
          String.intercalate (" " ++ comb ++ " ") (pr.1.filter (fun s => s ≠ "")) ++ ")",
         pr.2)

/-- Child mapping of the parameterized region: fragments in order, with the
parameters of each kept rule appended to the accumulator in visitation
order (an empty fragment appends nothing, as in the source guard). -/
def paramRRs (env : FQEnv) (lonely : Bool) : RRs → List Scalar → List String × List Scalar
  | .nil, acc => ([], acc)
  | .cons (.group sub) tl, acc =>
    let p := paramRG env sub lonely acc
    let rest := paramRRs env lonely tl p.2
    (p.1 :: rest.1, rest.2)
  | .cons (.rule r) tl, acc =>
    if ruleDropped env r then
      let rest := paramRRs env lonely tl acc
      ("" :: rest.1, rest.2)
    else
      let pr := ruleParamM r
      let acc2 := if pr.1 = "" then acc else acc ++ pr.2
      let rest := paramRRs env lonely tl acc2
      (pr.1 :: rest.1, rest.2)
end

mutual
/-- The parameterized-named region of formatQuery: threads the per-field
counter map and the named-parameter bindings through the walk. -/
def namedRG (env : FQEnv) (rg : RGr) (outermostOrLonelyInGroup : Bool)
    (fp : List (String × Nat)) (pn : List (String × Scalar)) :
    String × List (String × Nat) × List (String × Scalar) :=
  match rg with
  | .mk gid comb gnot rs =>
    if !groupValid env (.mk gid comb gnot rs) then
      ((if outermostOrLonelyInGroup then env.fallbackExpression else ""), fp, pn)
    else
      let pr := namedRRs env (rs.length == 1) rs fp pn
      if pr.1.length = 0 then (env.fallbackExpression, pr.2)
      else
        ((if gnot = some true then "NOT " else "") ++ "(" ++
          String.intercalate (" " ++ comb ++ " ") (pr.1.filter (fun s => s ≠ "")) ++ ")",
         pr.2)

/-- Child mapping of the parameterized-named region. -/
def namedRRs (env : FQEnv) (lonely : Bool) :
    RRs → List (String × Nat) → List (String × Scalar) →
      List String × List (String × Nat) × List (String × Scalar)
  | .nil, fp, pn => ([], fp, pn)
  | .cons (.group sub) tl, fp, pn =>
    let p := namedRG env sub lonely fp pn
    let rest := namedRRs env lonely tl p.2.1 p.2.2
    (p.1 :: rest.1, rest.2)
  | .cons (.rule r) tl, fp, pn =>
    if ruleDropped env r then
      let rest := namedRRs env lonely tl fp pn
      ("" :: rest.1, rest.2)
    else
      let pr := ruleParamNamedM r fp
      let rest := namedRRs env lonely tl pr.2.2 (pn ++ pr.2.1)
      (pr.1 :: rest.1, rest.2)
end

end RQB

namespace RQB

/-- The wrap test of the mongodb region (the regex testing for a string
that already starts and ends with braces and is non-trivial). -/
def mongoWrapped (s : String) : Bool :=
  match s.toList with
  | [] => false
  | c :: rest =>
    c == '\x7b' &&
      (match rest.getLast? with
       | some d => d == '\x7d' && rest.length ≥ 2
       | none => false)

/-- ASCII lowercasing over the character list of a string. -/
def lowerAscii (s : String) : String :=
  String.mk (s.toList.map (fun c =>
    if 65 ≤ c.toNat && c.toNat ≤ 90 then Char.ofNat (c.toNat + 32) else c))

/-- celCombinatorMap: the combinator keywords of CEL (an unknown key reads
as the undefined of a JavaScript map miss). -/
def celComb (c : String) : String :=
  if c = "and" then "&&" else if c = "or" then "||" else "undefined"

mutual
/-- The mongodb region of formatQuery: children map to fragment strings
(subgroup results re-wrapped in braces when not already wrapped), empties
are filtered, a single kept expression with no kept subgroup collapses to
the bare expression, and an empty kept list gives the fallback. -/
def mongoRG (env : FQEnv) (rg : RGr) (outermost : Bool) : String :=
  match rg with
  | .mk gid comb gnot rs =>
    if !groupValid env (.mk gid comb gnot rs) then
      if outermost then env.fallbackExpression else ""
    else
      let combinator := "\"$" ++ lowerAscii comb ++ "\""
      let pr := mongoRRs env rs
      let expressions := pr.1.filter (fun s => s ≠ "")
      if expressions.length = 0 then env.fallbackExpression
      else if expressions.length = 1 && !pr.2 then expressions.headD ""
      else combinator ++ ":[" ++ String.intercalate "," expressions ++ "]"

/-- Child mapping of the mongodb region: the fragment list together with
the has-child-rules flag (true when some subgroup produced a non-empty
result). -/
def mongoRRs (env : FQEnv) : RRs → List String × Bool
  | .nil => ([], false)
  | .cons (.group sub) tl =>
    let s := mongoRG env sub false
    let rest := mongoRRs env tl
    if s ≠ "" then
      ((if mongoWrapped s then s else "\x7b" ++ s ++ "\x7d") :: rest.1, true)
    else ("" :: rest.1, rest.2)
  | .cons (.rule r) tl =>
    let rest := mongoRRs env tl
    ((if ruleDropped env r then "" else ruleMongoM r) :: rest.1, rest.2)
end

mutual
/-- The cel region of formatQuery: fragments joined with the CEL combinator
keyword; negated or nested groups are parenthesized (with a bang for
negation); an empty joined expression gives the fallback. -/
def celRG (env : FQEnv) (rg : RGr) (outermost : Bool) : String :=
  match rg with
  | .mk gid comb gnot rs =>
    if !groupValid env (.mk gid comb gnot rs) then
      if outermost then env.fallbackExpression else ""
    else
      let expression :=
        String.intercalate (" " ++ celComb comb ++ " ")
          ((celRRs env rs).filter (fun s => s ≠ ""))
      let isNot := gnot = some true
      if expression ≠ "" then
        if isNot || !outermost then
          (if isNot then "!" else "") ++ "(" ++ expression ++ ")"
        else expression
      else env.fallbackExpression

/-- Child mapping of the cel region. -/
def celRRs (env : FQEnv) : RRs → List String
  | .nil => []
  | .cons (.group sub) tl => celRG env sub false :: celRRs env tl
  | .cons (.rule r) tl =>
    (if ruleDropped env r then "" else ruleCelM r) :: celRRs env tl
end

mutual
/-- The spel region of formatQuery (same shape as the cel region, joining
with the combinator itself). -/
def spelRG (env : FQEnv) (rg : RGr) (outermost : Bool) : String :=
  match rg with
  | .mk gid comb gnot rs =>
    if !groupValid env (.mk gid comb gnot rs) then
      if outermost then env.fallbackExpression else ""
    else
      let expression :=
        String.intercalate (" " ++ comb ++ " ")
          ((spelRRs env rs).filter (fun s => s ≠ ""))
      let isNot := gnot = some true
      if expression ≠ "" then
        if isNot || !outermost then
          (if isNot then "!" else "") ++ "(" ++ expression ++ ")"
        else expression
      else env.fallbackExpression

/-- Child mapping of the spel region. -/
def spelRRs (env : FQEnv) : RRs → List String
  | .nil => []
  | .cons (.group sub) tl => spelRG env sub false :: spelRRs env tl
  | .cons (.rule r) tl =>
    (if ruleDropped env r then "" else ruleSpelM r) :: spelRRs env tl
end

mutual
/-- The jsonata region of formatQuery (same shape as the spel region, the
negation wrapper spelled with the not function call). -/
def jsonataRG (env : FQEnv) (rg : RGr) (outermost : Bool) : String :=
  match rg with
  | .mk gid comb gnot rs =>
    if !groupValid env (.mk gid comb gnot rs) then
      if outermost then env.fallbackExpression else ""
    else
      let expression :=
        String.intercalate (" " ++ comb ++ " ")
          ((jsonataRRs env rs).filter (fun s => s ≠ ""))
      let isNot := gnot = some true
      if expression ≠ "" then
        if isNot || !outermost then
          (if isNot then "$not" else "") ++ "(" ++ expression ++ ")"
        else expression
      else env.fallbackExpression

/-- Child mapping of the jsonata region. -/
def jsonataRRs (env : FQEnv) : RRs → List String
  | .nil => []
  | .cons (.group sub) tl => jsonataRG env sub false :: jsonataRRs env tl
  | .cons (.rule r) tl =>
    (if ruleDropped env r then "" else ruleJsonataM r) :: jsonataRRs env tl
end

mutual
/-- The natural-language region of formatQuery: like the sql region with
comma-word joins, nested or negated groups suffixed with an is-true
clause. -/
def nlRG (env : FQEnv) (rg : RGr) (outermostOrLonelyInGroup : Bool) : String :=
  match rg with
  | .mk gid comb gnot rs =>
    if !groupValid env (.mk gid comb gnot rs) then
      if outermostOrLonelyInGroup then env.fallbackExpression else ""
    else
      let processedRules := nlRRs env (rs.length == 1) rs
      if processedRules.length = 0 then env.fallbackExpression
      else
        let isNot := gnot = some true
        let pfx := if isNot || !outermostOrLonelyInGroup then "(" else ""
        let sfx :=
          if isNot || !outermostOrLonelyInGroup then
            ") is" ++ (if isNot then " not" else "") ++ " true"
          else ""
        pfx ++
          String.intercalate (", " ++ comb ++ " ")
            (processedRules.filter (fun s => s ≠ "")) ++ sfx

/-- Child mapping of the natural-language region. -/
def nlRRs (env : FQEnv) (lonely : Bool) : RRs → List String
  | .nil => []
  | .cons (.group sub) tl => nlRG env sub lonely :: nlRRs env lonely tl
  | .cons (.rule r) tl =>
    (if ruleDropped env r then "" else ruleNlM r) :: nlRRs env lonely tl
end

/-- The combinator-keyed group object of the jsonlogic and postgrest
regions (a dynamic key in the source; canonical combinators are and and
or, anything else reads as an unrecognized key). -/
def combGroupPG (comb : String) (xs : PGL) : PG :=
  if comb = "or" then .jor xs else if comb = "and" then .jand xs else .junk comb

mutual
/-- The jsonlogic region of formatQuery: invalid groups and empty kept
child lists give false (none); otherwise the combinator-keyed group,
bang-wrapped when negated. -/
def jlRG (env : FQEnv) (rg : RGr) : Option PG :=
  match rg with
  | .mk gid comb gnot rs =>
    if !groupValid env (.mk gid comb gnot rs) then none
    else
      let processedRules := jlRRs env rs
      if processedRules.length = 0 then none
      else
        let grp := combGroupPG comb (pglOfList processedRules)
        some (if gnot = some true then .jneg grp else grp)

/-- Child mapping of the jsonlogic region (false results filtered). -/
def jlRRs (env : FQEnv) : RRs → List PG
  | .nil => []
  | .cons (.group sub) tl =>
    match jlRG env sub with
    | some p => p :: jlRRs env tl
    | none => jlRRs env tl
  | .cons (.rule r) tl =>
    if ruleDropped env r then jlRRs env tl
    else
      match ruleJsonLogicM r env.parseNumbers with
      | some p => p :: jlRRs env tl
      | none => jlRRs env tl
end

mutual
/-- The postgrest region of formatQuery: textually the jsonlogic region
with the PostgREST rule processor. -/
def pgRG (env : FQEnv) (rg : RGr) : Option PG :=
  match rg with
  | .mk gid comb gnot rs =>
    if !groupValid env (.mk gid comb gnot rs) then none
    else
      let processedRules := pgRRs env rs
      if processedRules.length = 0 then none
      else
        let grp := combGroupPG comb (pglOfList processedRules)
        some (if gnot = some true then .jneg grp else grp)

/-- Child mapping of the postgrest region (false results filtered). -/
def pgRRs (env : FQEnv) : RRs → List PG
  | .nil => []
  | .cons (.group sub) tl =>
    match pgRG env sub with
    | some p => p :: pgRRs env tl
    | none => pgRRs env tl
  | .cons (.rule r) tl =>
    if ruleDropped env r then pgRRs env tl
    else
      match defaultRuleProcessorPostgREST r env.parseNumbers with
      | some p => p :: pgRRs env tl
      | none => pgRRs env tl
end

mutual
/-- The elasticsearch region of formatQuery: invalid groups and empty kept
child lists give false (none); otherwise the bool query, negation mapping
an or group to must-not over should and an and group to must-not. -/
def esRG (env : FQEnv) (rg : RGr) : Option EsQ :=
  match rg with
  | .mk gid comb gnot rs =>
    if !groupValid env (.mk gid comb gnot rs) then none
    else
      let processedRules := esRRs env rs
      if processedRules.length = 0 then none
      else
        some
          (if gnot = some true then
            if comb = "or" then .mustNotShould (esOfList processedRules)
            else .mustNot (esOfList processedRules)
          else if comb = "or" then .should (esOfList processedRules)
          else .must (esOfList processedRules))

/-- Child mapping of the elasticsearch region (false results filtered). -/
def esRRs (env : FQEnv) : RRs → List EsQ
  | .nil => []
  | .cons (.group sub) tl =>
    match esRG env sub with
    | some q => q :: esRRs env tl
    | none => esRRs env tl
  | .cons (.rule r) tl =>
    if ruleDropped env r then esRRs env tl else .leaf r :: esRRs env tl
end

/-- The default fallback expression per format (resolved when no caller
override is present). -/
def defaultFallback (f : Fmt) : String :=
  match f with
  | .mongodb => "\"$and\":[\x7b\"$expr\":true\x7d]"
  | .cel => "1 == 1"
  | .spel => "1 == 1"
  | .natural_language => "1 is 1"
  | _ => "(1 = 1)"

/-- The early return of formatQuery when the whole-query validator gives
the boolean false (lines 392 to 403 of the source): each format has a
fixed invalid-query result; note that the jsonlogic format returns false
and the elasticsearch format the empty object, and that the postgrest
format falls into the default branch returning the plain fallback
string. -/
def fallbackOut (f : Fmt) (fallbackExpression : String) : FQOut :=
  match f with
  | .parameterized => .paramSql fallbackExpression []
  | .parameterized_named => .namedSql fallbackExpression []
  | .mongodb => .str ("\x7b" ++ fallbackExpression ++ "\x7d")
  | .jsonlogic => .logic none
  | .elasticsearch => .es .emptyObj
  | _ => .str fallbackExpression

/-- The fallback expression after defaulting (an absent or empty caller
override falls back to the per-format default). -/
def resolvedFallback (o : FQOptions) : String :=
  let fb0 := o.fallbackExpression.getD ""
  if fb0 = "" then defaultFallback o.format else fb0

/-- The whole-query validator applied to the tree (the source default
validator always answers true). -/
def appliedValidator (o : FQOptions) (t : RGr) : VOut :=
  match o.validator with
  | some v => v t
  | none => .vb true

/-- The per-format region chain of formatQuery after the validation pass
(one arm per region of the source; the json formats never reach this
point and fall to the final empty-string return). -/
def regionDispatch (env : FQEnv) (fmt : Fmt) (ruleGroup : RGr) : FQOut :=
  match fmt with
  | .sql => .str (sqlRG env ruleGroup true)
  | .parameterized =>
    let p := paramRG env ruleGroup true []
    .paramSql p.1 p.2
  | .parameterized_named =>
    let p := namedRG env ruleGroup true [] []
    .namedSql p.1 p.2.2
  | .mongodb =>
    let processedQuery := mongoRG env ruleGroup true
    .str (if mongoWrapped processedQuery then processedQuery
          else "\x7b" ++ processedQuery ++ "\x7d")
  | .cel => .str (celRG env ruleGroup true)
  | .spel => .str (spelRG env ruleGroup true)
  | .jsonata => .str (jsonataRG env ruleGroup true)
  | .natural_language => .str (nlRG env ruleGroup true)
  | .jsonlogic => .logic (jlRG env ruleGroup)
  | .postgrest => .logic (pgRG env ruleGroup)
  | .elasticsearch =>
    .es (match esRG env ruleGroup with
         | some q => q
         | none => .emptyObj)
  | _ => .str ""

/-- formatQuery from the source, over the standard-variant canonical tree
(the convertFromIC call of the object formats is the identity there). The
json formats return before validation; a boolean-false validator result
short-circuits every other format; otherwise the per-format region runs
with the resolved environment. -/
def formatQuery (ruleGroup : RGr) (o : FQOptions) : FQOut :=
  let fallbackExpression := resolvedFallback o
  if o.format = .json || o.format = .json_without_ids then
    let rg := if o.parseNumbers then numerifyRG ruleGroup else ruleGroup
    if o.format = .json_without_ids then .str (groupJson false false 0 rg)
    else .str (groupJson true true 0 rg)
  else
    let validationResult : VOut := appliedValidator o ruleGroup
    match validationResult with
    | .vb false => fallbackOut o.format fallbackExpression
    | other =>
      let validationMap : List (String × VRes) :=
        match other with
        | .vmap m => m
        | _ => []
      regionDispatch
        { validationMap := validationMap
          fields := o.fields
          fallbackExpression := fallbackExpression
          parseNumbers := o.parseNumbers
          phField := o.placeholderFieldName.getD defaultPlaceholderFieldName
          phOp := o.placeholderOperatorName.getD defaultPlaceholderOperatorName }
        o.format ruleGroup

end RQB

namespace RQB

/-- The scrub of one rule: a placeholder rule (under the given sentinels)
is replaced by a canonical content-free placeholder rule; any other rule is
kept. Two trees that differ only in the content of placeholder rules have
the same scrub. -/
def scrubRule (phF phO : String) (r : Rule) : Rule :=
  if r.field = phF || r.operator = phO then
    { field := phF, operator := phO, value := .sc .null }
  else r

mutual
/-- The scrub transform over groups. -/
def scrubRG (phF phO : String) : RGr → RGr
  | .mk i c n rs => .mk i c n (scrubRRs phF phO rs)

/-- The scrub transform over child lists. -/
def scrubRRs (phF phO : String) : RRs → RRs
  | .nil => .nil
  | .cons (.rule r) tl => .cons (.rule (scrubRule phF phO r)) (scrubRRs phF phO tl)
  | .cons (.group g) tl => .cons (.group (scrubRG phF phO g)) (scrubRRs phF phO tl)
end

/-- The scrub of a whole query under the placeholder sentinels of the
options. -/
def scrubT (o : FQOptions) (t : RGr) : RGr :=
  scrubRG (o.placeholderFieldName.getD defaultPlaceholderFieldName)
    (o.placeholderOperatorName.getD defaultPlaceholderOperatorName) t

/-- Every element of the child list is a rule whose field or operator is
the respective placeholder sentinel. -/
def allPlaceholderRules (phF phO : String) : RRs → Bool
  | .nil => true
  | .cons (.rule r) tl => (r.field = phF || r.operator = phO) && allPlaceholderRules phF phO tl
  | .cons (.group _) _ => false

/-- A negated-membership rule over the comma-joined list 1,2. -/
def notInRule : Rule := { field := "a", operator := "notIn", value := .sc (.s "1,2") }

/-- The canonical one-rule query holding notInRule. -/
def notInTree : RGr := .mk none "and" none (.cons (.rule notInRule) .nil)

/-- What the postgrest format emits for notInTree: the membership object
wrapped under the key not (not under the bang key). -/
def notInPGOut : PG :=
  .jand (.cons (.jnot (.jinArr (.jvar "a")
    (.cons (.jstr "1") (.cons (.jstr "2") .nil)))) .nil)

/-- The PostgREST object of the negation-absorption scenario: the bang key
over a membership test of the array holding 1 and 2. -/
def negInObj : PG := .jneg (.jinArr (.jvar "a") (.cons (.jnum 1) (.cons (.jnum 2) .nil)))

/-- The double-bang object over an equality comparison. -/
def dblNegObj : PG := .jnegneg (.jeq (.jvar "a") (.jnum 1))

/-- A placeholder rule (default sentinel field) carrying the given value. -/
def phRule (v : String) : Rule := { field := "~", operator := "=", value := .sc (.s v) }

/-- A one-rule query holding a placeholder rule with the given value. -/
def phTree (v : String) : RGr := .mk none "and" none (.cons (.rule (phRule v)) .nil)

/-- A notBetween rule with numeric bounds 1 and 2. -/
def nbRule : Rule := { field := "f", operator := "notBetween", value := .arr [.n 1, .n 2] }

/-- The environment formatQuery builds for the bare sql format. -/
def envSqlDefault : FQEnv :=
  { validationMap := [], fields := [], fallbackExpression := "(1 = 1)",
    parseNumbers := false, phField := "~", phOp := "~" }

end RQB

namespace RQB

/-- C8: formatting the empty and group with the sql format and no other
options returns exactly the fallback string of one-equals-one in
parentheses. -/
theorem c8_empty_group_sql_fallback :
    formatQuery emptyRuleGroup { format := .sql } = .str "(1 = 1)" := by
  decide

/-- C5: for every input string on which the JSON deserializer fails,
parsePostgREST returns the canonical empty and group (the caught-exception
branch); the embedding is a total function, mirroring that no error
escapes. -/
theorem c5_invalid_json_returns_empty_group
    (jsonParse : String → Option PG) (s : String) (opts : ParseOpts)
    (hfail : jsonParse s = none) :
    parsePostgREST jsonParse (.raw s) opts = .group emptyRuleGroup := by
  simp [parsePostgREST, hfail]

/-- Witness for C5 at a concrete deserializer and input string. -/
theorem c5_invalid_json_returns_empty_group_witness :
    parsePostgREST (fun _ => none) (.raw "not json") {} = .group emptyRuleGroup :=
  c5_invalid_json_returns_empty_group (fun _ => none) "not json" {} rfl

/-- C6: the double-bang path of processLogic re-enters without the
outermost flag, so parsePostgREST on a top-level double negation of a
plain comparison returns a bare rule, not a rule group, contradicting the
overload declaration of the source (outermost always yields a group or
false). -/
theorem c6_double_negation_returns_bare_rule :
    parsePostgREST (fun _ => none) (.obj dblNegObj) {} =
      .rule { field := "a", operator := "=", value := .sc (.n 1) } := by
  decide

/-- C1: the postgrest round trip loses every negated-operator rule: the
formatter emits the negation under the key not, the parser recognizes only
the bang key, so the composition maps the one-rule notIn query to the
empty group instead of back to itself. -/
theorem c1_postgrest_roundtrip_loses_negated_ops :
    formatQuery notInTree { format := .postgrest } = .logic (some notInPGOut) ∧
    parsePostgREST (fun _ => none) (.obj notInPGOut) {} = .group emptyRuleGroup ∧
    RGr.mk none "and" none .nil ≠ notInTree := by
  refine ⟨by decide, by decide, by decide⟩

/-- C2 counterexample: the json format serializes the tree before the
validation pass, so a validator answering false at the root does not
produce the fallback expression. -/
theorem c2_json_ignores_validator :
    formatQuery emptyRuleGroup
        { format := .json, validator := some (fun _ => .vb false) } ≠
      .str "(1 = 1)" := by
  decide

/-- C2 as amended: for every format other than json and json_without_ids,
a caller-supplied validator answering the boolean false at the root makes
formatQuery return the fixed invalid-query result of that format built
from the resolved fallback expression, regardless of the tree. -/
theorem c2_validator_false_fallback (t : RGr) (o : FQOptions) (v : RGr → VOut)
    (hv : o.validator = some v) (hfalse : v t = .vb false)
    (hj : o.format ≠ .json) (hjw : o.format ≠ .json_without_ids) :
    formatQuery t o = fallbackOut o.format (resolvedFallback o) := by
  unfold formatQuery
  simp [appliedValidator, hv, hfalse, hj, hjw]

/-- Witness for C2 at the sql format, a constantly-false validator and the
empty group. -/
theorem c2_validator_false_fallback_witness :
    formatQuery emptyRuleGroup
        { format := .sql, validator := some (fun _ => .vb false) } =
      fallbackOut .sql
        (resolvedFallback { format := .sql, validator := some (fun _ => .vb false) }) :=
  c2_validator_false_fallback emptyRuleGroup
    { format := .sql, validator := some (fun _ => .vb false) }
    (fun _ => .vb false) rfl rfl (by decide) (by decide)

/-- C3 counterexample: under the json format a placeholder rule is
serialized like any other rule, so its content reaches the output (two
queries differing only in a placeholder rule value format differently). -/
theorem c3_json_keeps_placeholder_rules :
    formatQuery (phTree "x") { format := .json } ≠
      formatQuery (phTree "y") { format := .json } := by
  decide

/-- C10 counterexample: for a notBetween rule the processor emits the
three-term le object wrapped under the key not, not the bare three-term le
object the claim states. -/
theorem c10_notbetween_is_wrapped :
    defaultRuleProcessorPostgREST nbRule false =
        some (.jnot (.jle3 (.jnum 1) (.jvar "f") (.jnum 2))) ∧
    defaultRuleProcessorPostgREST nbRule false ≠
        some (.jle3 (.jnum 1) (.jvar "f") (.jnum 2)) := by
  refine ⟨by decide, by decide⟩

/-- C4 counterexample: with default options the reconstructed notIn rule
carries the comma-joined string of 1 and 2, not the array value the claim
states. -/
theorem c4_default_value_is_comma_string :
    parsePostgREST (fun _ => none) (.obj negInObj) {} =
        .group (.mk none "and" none
          (.cons (.rule { field := "a", operator := "notIn", value := .sc (.s "1,2") }) .nil)) ∧
    RVal.sc (.s "1,2") ≠ RVal.arr [.n 1, .n 2] := by
  refine ⟨by decide, by decide⟩

end RQB

namespace RQB

/-- Either a rule is untouched by the scrub, or it is a placeholder rule
and both it and its scrub are dropped by every region. -/
theorem scrub_dichotomy (env : FQEnv) (r : Rule) :
    scrubRule env.phField env.phOp r = r ∨
    (ruleDropped env r = true ∧
      ruleDropped env (scrubRule env.phField env.phOp r) = true) := by
  by_cases hc : (r.field = env.phField || r.operator = env.phOp) = true
  · refine Or.inr ⟨?_, ?_⟩
    · rcases Bool.or_eq_true_iff.mp hc with h | h
      · have hf : r.field = env.phField := by simpa using h
        simp [ruleDropped, hf]
      · have ho : r.operator = env.phOp := by simpa using h
        simp [ruleDropped, ho]
    · simp [scrubRule, hc, ruleDropped]
  · exact Or.inl (by simp [scrubRule, hc])

/-- The scrub preserves the length of a child list. -/
theorem scrubRRs_length (phF phO : String) : ∀ rs : RRs,
    (scrubRRs phF phO rs).length = rs.length
  | .nil => rfl
  | .cons (.rule r) tl => by
    simp [scrubRRs, RRs.length, scrubRRs_length phF phO tl]
  | .cons (.group g) tl => by
    simp [scrubRRs, RRs.length, scrubRRs_length phF phO tl]

mutual
/-- The sql region is invariant under the scrub. -/
theorem sqlRG_scrub (env : FQEnv) : ∀ (g : RGr) (flag : Bool),
    sqlRG env (scrubRG env.phField env.phOp g) flag = sqlRG env g flag
  | .mk i c n rs, flag => by
    rw [scrubRG]
    rw [sqlRG, sqlRG]
    rw [scrubRRs_length env.phField env.phOp rs,
      sqlRRs_scrub env (rs.length == 1) rs]
    simp [groupValid, RGr.id]

/-- The sql child mapping is invariant under the scrub. -/
theorem sqlRRs_scrub (env : FQEnv) : ∀ (lonely : Bool) (rs : RRs),
    sqlRRs env lonely (scrubRRs env.phField env.phOp rs) = sqlRRs env lonely rs
  | _, .nil => rfl
  | lonely, .cons (.rule r) tl => by
    rcases scrub_dichotomy env r with he | ⟨hd1, hd2⟩
    · simp [scrubRRs, he, sqlRRs, sqlRRs_scrub env lonely tl]
    · simp [scrubRRs, sqlRRs, hd1, hd2, sqlRRs_scrub env lonely tl]
  | lonely, .cons (.group g) tl => by
    simp [scrubRRs, sqlRRs, sqlRG_scrub env g lonely, sqlRRs_scrub env lonely tl]
end

mutual
/-- The natural-language region is invariant under the scrub. -/
theorem nlRG_scrub (env : FQEnv) : ∀ (g : RGr) (flag : Bool),
    nlRG env (scrubRG env.phField env.phOp g) flag = nlRG env g flag
  | .mk i c n rs, flag => by
    rw [scrubRG]
    rw [nlRG, nlRG]
    rw [scrubRRs_length env.phField env.phOp rs,
      nlRRs_scrub env (rs.length == 1) rs]
    simp [groupValid, RGr.id]

/-- The natural-language child mapping is invariant under the scrub. -/
theorem nlRRs_scrub (env : FQEnv) : ∀ (lonely : Bool) (rs : RRs),
    nlRRs env lonely (scrubRRs env.phField env.phOp rs) = nlRRs env lonely rs
  | _, .nil => rfl
  | lonely, .cons (.rule r) tl => by
    rcases scrub_dichotomy env r with he | ⟨hd1, hd2⟩
    · simp [scrubRRs, he, nlRRs, nlRRs_scrub env lonely tl]
    · simp [scrubRRs, nlRRs, hd1, hd2, nlRRs_scrub env lonely tl]
  | lonely, .cons (.group g) tl => by
    simp [scrubRRs, nlRRs, nlRG_scrub env g lonely, nlRRs_scrub env lonely tl]
end

mutual
/-- The cel region is invariant under the scrub. -/
theorem celRG_scrub (env : FQEnv) : ∀ (g : RGr) (om : Bool),
    celRG env (scrubRG env.phField env.phOp g) om = celRG env g om
  | .mk i c n rs, om => by
    rw [scrubRG]
    rw [celRG, celRG]
    rw [celRRs_scrub env rs]
    simp [groupValid, RGr.id]

/-- The cel child mapping is invariant under the scrub. -/
theorem celRRs_scrub (env : FQEnv) : ∀ rs : RRs,
    celRRs env (scrubRRs env.phField env.phOp rs) = celRRs env rs
  | .nil => rfl
  | .cons (.rule r) tl => by
    rcases scrub_dichotomy env r with he | ⟨hd1, hd2⟩
    · simp [scrubRRs, he, celRRs, celRRs_scrub env tl]
    · simp [scrubRRs, celRRs, hd1, hd2, celRRs_scrub env tl]
  | .cons (.group g) tl => by
    simp [scrubRRs, celRRs, celRG_scrub env g false, celRRs_scrub env tl]
end

mutual
/-- The spel region is invariant under the scrub. -/
theorem spelRG_scrub (env : FQEnv) : ∀ (g : RGr) (om : Bool),
    spelRG env (scrubRG env.phField env.phOp g) om = spelRG env g om
  | .mk i c n rs, om => by
    rw [scrubRG]
    rw [spelRG, spelRG]
    rw [spelRRs_scrub env rs]
    simp [groupValid, RGr.id]

/-- The spel child mapping is invariant under the scrub. -/
theorem spelRRs_scrub (env : FQEnv) : ∀ rs : RRs,
    spelRRs env (scrubRRs env.phField env.phOp rs) = spelRRs env rs
  | .nil => rfl
  | .cons (.rule r) tl => by
    rcases scrub_dichotomy env r with he | ⟨hd1, hd2⟩
    · simp [scrubRRs, he, spelRRs, spelRRs_scrub env tl]
    · simp [scrubRRs, spelRRs, hd1, hd2, spelRRs_scrub env tl]
  | .cons (.group g) tl => by
    simp [scrubRRs, spelRRs, spelRG_scrub env g false, spelRRs_scrub env tl]
end

mutual
/-- The jsonata region is invariant under the scrub. -/
theorem jsonataRG_scrub (env : FQEnv) : ∀ (g : RGr) (om : Bool),
    jsonataRG env (scrubRG env.phField env.phOp g) om = jsonataRG env g om
  | .mk i c n rs, om => by
    rw [scrubRG]
    rw [jsonataRG, jsonataRG]
    rw [jsonataRRs_scrub env rs]
    simp [groupValid, RGr.id]

/-- The jsonata child mapping is invariant under the scrub. -/
theorem jsonataRRs_scrub (env : FQEnv) : ∀ rs : RRs,
    jsonataRRs env (scrubRRs env.phField env.phOp rs) = jsonataRRs env rs
  | .nil => rfl
  | .cons (.rule r) tl => by
    rcases scrub_dichotomy env r with he | ⟨hd1, hd2⟩
    · simp [scrubRRs, he, jsonataRRs, jsonataRRs_scrub env tl]
    · simp [scrubRRs, jsonataRRs, hd1, hd2, jsonataRRs_scrub env tl]
  | .cons (.group g) tl => by
    simp [scrubRRs, jsonataRRs, jsonataRG_scrub env g false, jsonataRRs_scrub env tl]
end

mutual
/-- The mongodb region is invariant under the scrub. -/
theorem mongoRG_scrub (env : FQEnv) : ∀ (g : RGr) (om : Bool),
    mongoRG env (scrubRG env.phField env.phOp g) om = mongoRG env g om
  | .mk i c n rs, om => by
    rw [scrubRG]
    rw [mongoRG, mongoRG]
    rw [mongoRRs_scrub env rs]
    simp [groupValid, RGr.id]

/-- The mongodb child mapping is invariant under the scrub. -/
theorem mongoRRs_scrub (env : FQEnv) : ∀ rs : RRs,
    mongoRRs env (scrubRRs env.phField env.phOp rs) = mongoRRs env rs
  | .nil => rfl
  | .cons (.rule r) tl => by
    rcases scrub_dichotomy env r with he | ⟨hd1, hd2⟩
    · simp [scrubRRs, he, mongoRRs, mongoRRs_scrub env tl]
    · simp [scrubRRs, mongoRRs, hd1, hd2, mongoRRs_scrub env tl]
  | .cons (.group g) tl => by
    simp [scrubRRs, mongoRRs, mongoRG_scrub env g false, mongoRRs_scrub env tl]
end

mutual
/-- The parameterized region is invariant under the scrub, for every
parameter accumulator. -/
theorem paramRG_scrub (env : FQEnv) : ∀ (g : RGr) (flag : Bool) (acc : List Scalar),
    paramRG env (scrubRG env.phField env.phOp g) flag acc = paramRG env g flag acc
  | .mk i c n rs, flag, acc => by
    rw [scrubRG]
    rw [paramRG, paramRG]
    rw [scrubRRs_length env.phField env.phOp rs,
      paramRRs_scrub env (rs.length == 1) rs acc]
    simp [groupValid, RGr.id]

/-- The parameterized child mapping is invariant under the scrub. -/
theorem paramRRs_scrub (env : FQEnv) : ∀ (lonely : Bool) (rs : RRs) (acc : List Scalar),
    paramRRs env lonely (scrubRRs env.phField env.phOp rs) acc = paramRRs env lonely rs acc
  | _, .nil, _ => rfl
  | lonely, .cons (.rule r) tl, acc => by
    rcases scrub_dichotomy env r with he | ⟨hd1, hd2⟩
    · simp [scrubRRs, he, paramRRs, paramRRs_scrub env lonely tl]
    · simp [scrubRRs, paramRRs, hd1, hd2, paramRRs_scrub env lonely tl]
  | lonely, .cons (.group g) tl, acc => by
    simp [scrubRRs, paramRRs, paramRG_scrub env g lonely acc, paramRRs_scrub env lonely tl]
end

mutual
/-- The parameterized-named region is invariant under the scrub, for every
counter and binding state. -/
theorem namedRG_scrub (env : FQEnv) :
    ∀ (g : RGr) (flag : Bool) (fp : List (String × Nat)) (pn : List (String × Scalar)),
    namedRG env (scrubRG env.phField env.phOp g) flag fp pn = namedRG env g flag fp pn
  | .mk i c n rs, flag, fp, pn => by
    rw [scrubRG]
    rw [namedRG, namedRG]
    rw [scrubRRs_length env.phField env.phOp rs,
      namedRRs_scrub env (rs.length == 1) rs fp pn]
    simp [groupValid, RGr.id]

/-- The parameterized-named child mapping is invariant under the scrub. -/
theorem namedRRs_scrub (env : FQEnv) :
    ∀ (lonely : Bool) (rs : RRs) (fp : List (String × Nat)) (pn : List (String × Scalar)),
    namedRRs env lonely (scrubRRs env.phField env.phOp rs) fp pn = namedRRs env lonely rs fp pn
  | _, .nil, _, _ => rfl
  | lonely, .cons (.rule r) tl, fp, pn => by
    rcases scrub_dichotomy env r with he | ⟨hd1, hd2⟩
    · simp [scrubRRs, he, namedRRs, namedRRs_scrub env lonely tl]
    · simp [scrubRRs, namedRRs, hd1, hd2, namedRRs_scrub env lonely tl]
  | lonely, .cons (.group g) tl, fp, pn => by
    simp [scrubRRs, namedRRs, namedRG_scrub env g lonely fp pn, namedRRs_scrub env lonely tl]
end

mutual
/-- The jsonlogic region is invariant under the scrub. -/
theorem jlRG_scrub (env : FQEnv) : ∀ g : RGr,
    jlRG env (scrubRG env.phField env.phOp g) = jlRG env g
  | .mk i c n rs => by
    rw [scrubRG]
    rw [jlRG, jlRG]
    rw [jlRRs_scrub env rs]
    simp [groupValid, RGr.id]

/-- The jsonlogic child mapping is invariant under the scrub. -/
theorem jlRRs_scrub (env : FQEnv) : ∀ rs : RRs,
    jlRRs env (scrubRRs env.phField env.phOp rs) = jlRRs env rs
  | .nil => rfl
  | .cons (.rule r) tl => by
    rcases scrub_dichotomy env r with he | ⟨hd1, hd2⟩
    · simp [scrubRRs, he, jlRRs, jlRRs_scrub env tl]
    · simp [scrubRRs, jlRRs, hd1, hd2, jlRRs_scrub env tl]
  | .cons (.group g) tl => by
    simp [scrubRRs, jlRRs, jlRG_scrub env g, jlRRs_scrub env tl]
end

mutual
/-- The postgrest region is invariant under the scrub. -/
theorem pgRG_scrub (env : FQEnv) : ∀ g : RGr,
    pgRG env (scrubRG env.phField env.phOp g) = pgRG env g
  | .mk i c n rs => by
    rw [scrubRG]
    rw [pgRG, pgRG]
    rw [pgRRs_scrub env rs]
    simp [groupValid, RGr.id]

/-- The postgrest child mapping is invariant under the scrub. -/
theorem pgRRs_scrub (env : FQEnv) : ∀ rs : RRs,
    pgRRs env (scrubRRs env.phField env.phOp rs) = pgRRs env rs
  | .nil => rfl
  | .cons (.rule r) tl => by
    rcases scrub_dichotomy env r with he | ⟨hd1, hd2⟩
    · simp [scrubRRs, he, pgRRs, pgRRs_scrub env tl]
    · simp [scrubRRs, pgRRs, hd1, hd2, pgRRs_scrub env tl]
  | .cons (.group g) tl => by
    simp [scrubRRs, pgRRs, pgRG_scrub env g, pgRRs_scrub env tl]
end

mutual
/-- The elasticsearch region is invariant under the scrub. -/
theorem esRG_scrub (env : FQEnv) : ∀ g : RGr,
    esRG env (scrubRG env.phField env.phOp g) = esRG env g
  | .mk i c n rs => by
    rw [scrubRG]
    rw [esRG, esRG]
    rw [esRRs_scrub env rs]
    simp [groupValid, RGr.id]

/-- The elasticsearch child mapping is invariant under the scrub. -/
theorem esRRs_scrub (env : FQEnv) : ∀ rs : RRs,
    esRRs env (scrubRRs env.phField env.phOp rs) = esRRs env rs
  | .nil => rfl
  | .cons (.rule r) tl => by
    rcases scrub_dichotomy env r with he | ⟨hd1, hd2⟩
    · simp [scrubRRs, he, esRRs, esRRs_scrub env tl]
    · simp [scrubRRs, esRRs, hd1, hd2, esRRs_scrub env tl]
  | .cons (.group g) tl => by
    simp [scrubRRs, esRRs, esRG_scrub env g, esRRs_scrub env tl]
end

/-- The whole region chain is invariant under the scrub. -/
theorem regionDispatch_scrub (env : FQEnv) (fmt : Fmt) (t : RGr) :
    regionDispatch env fmt (scrubRG env.phField env.phOp t) = regionDispatch env fmt t := by
  cases fmt
  case json => rfl
  case json_without_ids => rfl
  case sql => exact congrArg FQOut.str (sqlRG_scrub env t true)
  case parameterized =>
    simp only [regionDispatch, paramRG_scrub env t true []]
  case parameterized_named =>
    simp only [regionDispatch, namedRG_scrub env t true [] []]
  case mongodb =>
    simp only [regionDispatch, mongoRG_scrub env t true]
  case cel => exact congrArg FQOut.str (celRG_scrub env t true)
  case spel => exact congrArg FQOut.str (spelRG_scrub env t true)
  case jsonata => exact congrArg FQOut.str (jsonataRG_scrub env t true)
  case natural_language => exact congrArg FQOut.str (nlRG_scrub env t true)
  case jsonlogic => exact congrArg FQOut.logic (jlRG_scrub env t)
  case postgrest => exact congrArg FQOut.logic (pgRG_scrub env t)
  case elasticsearch =>
    simp only [regionDispatch, esRG_scrub env t]

/-- C3 as amended: for every export format other than json and
json_without_ids, the placeholder rules of a query contribute nothing:
replacing every placeholder rule by the content-free placeholder rule (the
scrub) leaves the output of formatQuery unchanged, for every option set,
provided the caller-supplied whole-query validator does not itself
distinguish the two trees. -/
theorem c3_placeholder_scrub_invariant (t : RGr) (o : FQOptions)
    (hj : o.format ≠ .json) (hjw : o.format ≠ .json_without_ids)
    (hval : appliedValidator o (scrubT o t) = appliedValidator o t) :
    formatQuery (scrubT o t) o = formatQuery t o := by
  unfold formatQuery
  unfold scrubT at hval ⊢
  have hcond : (o.format = Fmt.json || o.format = Fmt.json_without_ids) = false := by
    simp [hj, hjw]
  simp only [hcond]
  simp only [Bool.false_eq_true, if_false]
  rw [hval]
  cases hv : appliedValidator o t with
  | vb b =>
    cases b
    · rfl
    · exact regionDispatch_scrub _ o.format t
  | vmap m =>
    exact regionDispatch_scrub _ o.format t

/-- Witness for C3 at the sql format, the default validator and a one-rule
placeholder query. -/
theorem c3_placeholder_scrub_invariant_witness :
    formatQuery (scrubT { format := .sql } (phTree "x")) { format := .sql } =
      formatQuery (phTree "x") { format := .sql } :=
  c3_placeholder_scrub_invariant (phTree "x") { format := .sql }
    (by decide) (by decide) rfl

end RQB

namespace RQB

/-- A value that passes shouldRenderAsNumber is a valid between bound. -/
theorem isValidValue_of_shouldRender (v : Scalar)
    (h : shouldRenderAsNumberS v true = true) : isValidValue v = true := by
  cases v with
  | n q => rfl
  | b bv => simp [shouldRenderAsNumberS] at h
  | null => simp [shouldRenderAsNumberS] at h
  | s str =>
    by_cases hs : str = ""
    · subst hs
      simp [shouldRenderAsNumberS] at h
      exact absurd h (by decide)
    · simp [isValidValue, hs]

/-- C4 as amended: parsing the bang-negated membership object yields the
notIn rule with the array value under listsAsArrays (with default options
the value is the comma-joined string, see the counterexample); and in
general, bang-negating a logic object that parses to a rule with a
negatable operator (between, in, contains, beginsWith, endsWith) replaces
the operator with its negated counterpart instead of producing a negated
group, wrapped in a one-element and group at the outermost position. -/
theorem c4_negation_absorption :
    parsePostgREST (fun _ => none) (.obj negInObj) { listsAsArrays := true } =
      .group (.mk none "and" none
        (.cons (.rule { field := "a", operator := "notIn", value := .arr [.n 1, .n 2] }) .nil)) ∧
    ∀ (opts : ParseOpts) (l : PG) (r : Rule),
      processLogic opts l false = some (.rule r) →
      (r.operator = "between" ∨ r.operator = "in" ∨ r.operator = "contains" ∨
        r.operator = "beginsWith" ∨ r.operator = "endsWith") →
      processLogic opts (.jneg l) false =
          some (.rule { r with operator := negateOp r.operator }) ∧
      processLogic opts (.jneg l) true =
          some (.group (.mk none "and" none
            (.cons (.rule { r with operator := negateOp r.operator }) .nil))) := by
  refine ⟨by decide, ?_⟩
  intro opts l r h hop
  have hstep : ∀ om : Bool, processLogic opts (.jneg l) om =
      processLogicF opts (pgW l + 1) (.jneg l) om := by
    intro om
    simp [processLogic, pgW]
  have hbody : ∀ om : Bool, processLogicF opts (pgW l + 1) (.jneg l) om =
      (match processLogic opts l false with
       | some (.rule r) =>
         if r.operator = "between" || r.operator = "in" || r.operator = "contains" ||
             r.operator = "beginsWith" || r.operator = "endsWith" then
           let newRule := { r with operator := negateOp r.operator }
           if om then
             some (.group (.mk none "and" none (.cons (.rule newRule) .nil)))
           else some (.rule newRule)
         else some (.group (.mk none "and" (some true) (.cons (.rule r) .nil)))
       | some (.group g) => some (.group (.mk g.id g.combinator (some true) g.rules))
       | none => none) := by
    intro om
    cases om <;> rfl
  rcases hop with h1 | h1 | h1 | h1 | h1 <;>
    refine ⟨?_, ?_⟩ <;>
      (rw [hstep, hbody, h]; simp [h1, negateOp])

/-- Witness for C4 at the membership object over the array of 1 and 2. -/
theorem c4_negation_absorption_witness :
    processLogic {} (.jneg (.jinArr (.jvar "a") (.cons (.jnum 1) (.cons (.jnum 2) .nil)))) false =
      some (.rule { field := "a", operator := negateOp "in", value := .sc (.s "1,2") }) :=
  (c4_negation_absorption.2 {}
    (.jinArr (.jvar "a") (.cons (.jnum 1) (.cons (.jnum 2) .nil)))
    { field := "a", operator := "in", value := .sc (.s "1,2") }
    (by decide) (Or.inr (Or.inl rfl))).1

/-- The filter on non-empty fragments drops a run of empty strings. -/
theorem replicate_filter_ne_empty (n : Nat) :
    (List.replicate n "").filter (fun s => s ≠ "") = [] := by
  induction n with
  | zero => rfl
  | succ k ih => simp [List.replicate, ih]

/-- A non-empty child list has positive length. -/
theorem rrs_length_ne_nil (rs : RRs) (h : rs ≠ .nil) : rs.length ≠ 0 := by
  cases rs with
  | nil => exact absurd rfl h
  | cons hd tl => simp [RRs.length]

/-- A list of placeholder rules maps to a run of empty fragments in the
sql region under the default environment. -/
theorem sqlRRs_all_placeholder : ∀ (rs : RRs) (lonely : Bool),
    allPlaceholderRules "~" "~" rs = true →
    sqlRRs envSqlDefault lonely rs = List.replicate rs.length ""
  | .nil, _, _ => rfl
  | .cons (.group g) tl, lonely, h => by simp [allPlaceholderRules] at h
  | .cons (.rule r) tl, lonely, h => by
    simp [allPlaceholderRules] at h
    have hval : validateRule envSqlDefault r = (none, none) := by
      unfold validateRule
      cases r.id <;> simp [envSqlDefault, lookupVM]
    have hdrop : ruleDropped envSqlDefault r = true := by
      simp [ruleDropped, hval, isRuleOrGroupValid]
      exact h.1
    simp [sqlRRs, hdrop, RRs.length, List.replicate,
      sqlRRs_all_placeholder tl lonely h.2]

/-- C7: under the sql format with default options, a group whose child
list is non-empty but consists only of placeholder rules yields the empty
join result (a bare pair of parentheses), while the group with the empty
child list yields the fallback expression. -/
theorem c7_sql_all_filtered_vs_empty (rs : RRs) (hne : rs ≠ .nil)
    (hph : allPlaceholderRules "~" "~" rs = true) :
    formatQuery (.mk none "and" none rs) { format := .sql } = .str "()" ∧
    formatQuery (.mk none "and" none .nil) { format := .sql } = .str "(1 = 1)" := by
  refine ⟨?_, by decide⟩
  show FQOut.str (sqlRG envSqlDefault (.mk none "and" none rs) true) = .str "()"
  have hvalid : groupValid envSqlDefault (.mk none "and" none rs) = true := by
    simp [groupValid, envSqlDefault, lookupVM, isRuleOrGroupValid, RGr.id]
  rw [sqlRG]
  simp only [hvalid, RGr.rules, RGr.flagNot, RGr.combinator,
    sqlRRs_all_placeholder rs _ hph]
  have hlen : (List.replicate rs.length "").length = rs.length := by simp
  simp [hlen, rrs_length_ne_nil rs hne, replicate_filter_ne_empty, String.intercalate]

/-- Witness for C7 at a one-element placeholder child list. -/
theorem c7_sql_all_filtered_vs_empty_witness :
    formatQuery (.mk none "and" none (.cons (.rule (phRule "x")) .nil)) { format := .sql } =
        .str "()" ∧
    formatQuery (.mk none "and" none .nil) { format := .sql } = .str "(1 = 1)" :=
  c7_sql_all_filtered_vs_empty (.cons (.rule (phRule "x")) .nil) (by decide) (by decide)

/-- C10 as amended: for a between or notBetween rule with literal value
source and two bounds passing the numeric-literal test, the processor
emits the three-term le object over the parsed bounds in ascending order
(negation-wrapped for notBetween), so swapping the two bounds produces the
identical output. -/
theorem c10_between_swap (f : String) (v0 v1 : Scalar) (op : String) (pn : Bool)
    (hop : op = "between" ∨ op = "notBetween")
    (h0 : shouldRenderAsNumberS v0 true = true)
    (h1 : shouldRenderAsNumberS v1 true = true) :
    (∃ lo hi, lo ≤ hi ∧
      defaultRuleProcessorPostgREST { field := f, operator := op, value := .arr [v0, v1] } pn =
        some (negateIfNotOp op (.jle3 (.jnum lo) (.jvar f) (.jnum hi)))) ∧
    defaultRuleProcessorPostgREST { field := f, operator := op, value := .arr [v0, v1] } pn =
      defaultRuleProcessorPostgREST { field := f, operator := op, value := .arr [v1, v0] } pn := by
  have hv0 := isValidValue_of_shouldRender v0 h0
  have hv1 := isValidValue_of_shouldRender v1 h1
  have hcore : ∀ a b : Scalar, shouldRenderAsNumberS a true = true →
      shouldRenderAsNumberS b true = true →
      defaultRuleProcessorPostgREST.processBetween (.arr [a, b]) false (.jvar f) op =
        some (negateIfNotOp op
          (.jle3 (.jnum (if scalarNumVal b < scalarNumVal a then scalarNumVal b else scalarNumVal a))
            (.jvar f)
            (.jnum (if scalarNumVal b < scalarNumVal a then scalarNumVal a else scalarNumVal b)))) := by
    intro a b ha hb
    have hva := isValidValue_of_shouldRender a ha
    have hvb := isValidValue_of_shouldRender b hb
    simp [defaultRuleProcessorPostgREST.processBetween, toArrayV, hva, hvb, ha, hb]
    split <;> simp
  rcases hop with h | h <;> subst h
  · constructor
    · by_cases hlt : scalarNumVal v1 < scalarNumVal v0
      · exact ⟨scalarNumVal v1, scalarNumVal v0, le_of_lt hlt, by
          simp [defaultRuleProcessorPostgREST, hcore v0 v1 h0 h1, hlt]⟩
      · exact ⟨scalarNumVal v0, scalarNumVal v1, le_of_not_lt hlt, by
          simp [defaultRuleProcessorPostgREST, hcore v0 v1 h0 h1, hlt]⟩
    · rcases lt_trichotomy (scalarNumVal v0) (scalarNumVal v1) with hlt | heq | hgt
      · simp [defaultRuleProcessorPostgREST, hcore v0 v1 h0 h1, hcore v1 v0 h1 h0,
          hlt, not_lt_of_gt hlt, asymm hlt]
      · simp [defaultRuleProcessorPostgREST, hcore v0 v1 h0 h1, hcore v1 v0 h1 h0, heq]
      · simp [defaultRuleProcessorPostgREST, hcore v0 v1 h0 h1, hcore v1 v0 h1 h0,
          hgt, not_lt_of_gt hgt, asymm hgt]
  · constructor
    · by_cases hlt : scalarNumVal v1 < scalarNumVal v0
      · exact ⟨scalarNumVal v1, scalarNumVal v0, le_of_lt hlt, by
          simp [defaultRuleProcessorPostgREST, hcore v0 v1 h0 h1, hlt]⟩
      · exact ⟨scalarNumVal v0, scalarNumVal v1, le_of_not_lt hlt, by
          simp [defaultRuleProcessorPostgREST, hcore v0 v1 h0 h1, hlt]⟩
    · rcases lt_trichotomy (scalarNumVal v0) (scalarNumVal v1) with hlt | heq | hgt
      · simp [defaultRuleProcessorPostgREST, hcore v0 v1 h0 h1, hcore v1 v0 h1 h0,
          hlt, not_lt_of_gt hlt, asymm hlt]
      · simp [defaultRuleProcessorPostgREST, hcore v0 v1 h0 h1, hcore v1 v0 h1 h0, heq]
      · simp [defaultRuleProcessorPostgREST, hcore v0 v1 h0 h1, hcore v1 v0 h1 h0,
          hgt, not_lt_of_gt hgt, asymm hgt]

/-- Witness for C10 at the between operator with bounds 5 and 2. -/
theorem c10_between_swap_witness :
    (∃ lo hi, lo ≤ hi ∧
      defaultRuleProcessorPostgREST
          { field := "f", operator := "between", value := .arr [.n 5, .n 2] } false =
        some (negateIfNotOp "between" (.jle3 (.jnum lo) (.jvar "f") (.jnum hi)))) ∧
    defaultRuleProcessorPostgREST
        { field := "f", operator := "between", value := .arr [.n 5, .n 2] } false =
      defaultRuleProcessorPostgREST
        { field := "f", operator := "between", value := .arr [.n 2, .n 5] } false :=
  c10_between_swap "f" (.n 5) (.n 2) "between" false (Or.inl rfl) (by decide) (by decide)

end RQB
